import Mathlib

/-!
Shallow embedding of the clause-segmentation and compliance-checking logic of
`app/contract/utils/law_checker.py` (repository BalikPenang), together with
theorems settling the specification claims about it.

Text is modelled as `List Char`.  The Python regular expression
`CLAUSE_PATTERN = r"^(\s*(\d+\.?\d*\.?\d*\.)\s+)"` (compiled with
`re.MULTILINE`) is embedded by a faithful backtracking matcher:

* `\s` is the set of characters Python's `re` treats as whitespace
  (`isPySpace` below, the Unicode white-space code points);
* `\d` is modelled as the ASCII decimal digits `0`-`9` (`isDigitChar`), the
  only digit characters relevant to the contract texts handled by the app;
* `^` under `re.MULTILINE` matches at the start of the input and immediately
  after each newline character;
* greedy quantifiers try the longest consumption first and backtrack, and
  `?` tries the one-character consumption before the empty one, exactly as
  Python's engine does (`tryPlus`, `tryStar`, `tryOpt`, `matchLabel`);
* `re.split` scans left to right for non-overlapping matches and returns the
  interleaving of the unmatched stretches with the two capture groups of each
  match (`findMatch`, `reSplit`), so the resulting list of parts is
  `[pre₀, g1₁, g2₁, pre₁, g1₂, g2₂, …, tail]` and has length `3·k + 1`;
* the `for i in range(3, len(parts), 3)` loop with its accesses
  `parts[i-1]` / `parts[i]` is embedded by `pyRange3` and `idxSplit`.

`str.strip()` is `strip` below, and Python's substring test `needle in hay`
is `containsSub`.
-/

namespace LawChecker

/-- Whitespace according to Python's `re` module and `str.strip` / `str.isspace`
(the Unicode white-space code points). -/
def isPySpace (c : Char) : Bool :=
  let n := c.toNat
  n = 0x20 || (0x09 ≤ n && n ≤ 0x0d) || (0x1c ≤ n && n ≤ 0x1f) || n = 0x85 ||
    n = 0xa0 || n = 0x1680 || (0x2000 ≤ n && n ≤ 0x200a) || n = 0x2028 ||
    n = 0x2029 || n = 0x202f || n = 0x205f || n = 0x3000

/-- Decimal digit, the model of the regex class `\d`. -/
def isDigitChar (c : Char) : Bool :=
  0x30 ≤ c.toNat && c.toNat ≤ 0x39

/-- Length of the maximal run of digits at the front of the text. -/
def digitRun : List Char → Nat
  | [] => 0
  | c :: cs => if isDigitChar c then digitRun cs + 1 else 0

/-- Length of the maximal run of whitespace at the front of the text. -/
def spaceRun : List Char → Nat
  | [] => 0
  | c :: cs => if isPySpace c then spaceRun cs + 1 else 0

/-- Candidate consumption lengths for `\d+`, in the order a greedy backtracking
engine tries them: the maximal digit run first, down to one digit. -/
def tryPlus (s : List Char) : List Nat :=
  ((List.range (digitRun s)).map (· + 1)).reverse

/-- Candidate consumption lengths for `\d*`: maximal run first, down to zero. -/
def tryStar (s : List Char) : List Nat :=
  (List.range (digitRun s + 1)).reverse

/-- Candidate consumption lengths for `\.?`: the dot is consumed if present,
with the empty alternative tried second. -/
def tryOpt (s : List Char) : List Nat :=
  match s with
  | c :: _ => if c = '.' then [1, 0] else [0]
  | [] => [0]

/-- True when the text starts with a whitespace character; the residual
requirement of `\s+` after the label (the run itself is then maximal). -/
def nextIsSpace (s : List Char) : Bool :=
  match s with
  | c :: _ => isPySpace c
  | [] => false

/-- Backtracking matcher for `\d+\.?\d*\.?\d*\.` followed by `\s+`, anchored at
the start of `s`.  Returns the number of characters of the label (the second
capture group of `CLAUSE_PATTERN`), i.e. everything up to and including the
final dot, when the whole pattern matches; the candidate lengths are tried in
the exact order of Python's backtracking engine. -/
def matchLabel (s : List Char) : Option Nat :=
  (tryPlus s).findSome? fun n1 =>
    (tryOpt (s.drop n1)).findSome? fun n2 =>
      (tryStar ((s.drop n1).drop n2)).findSome? fun n3 =>
        (tryOpt (((s.drop n1).drop n2).drop n3)).findSome? fun n4 =>
          (tryStar ((((s.drop n1).drop n2).drop n3).drop n4)).findSome? fun n5 =>
            match ((((s.drop n1).drop n2).drop n3).drop n4).drop n5 with
            | c :: rest =>
                if c = '.' && nextIsSpace rest then some (n1 + n2 + n3 + n4 + n5 + 1)
                else none
            | [] => none

/-- Membership in the language of the label sub-pattern `\d+\.?\d*\.?\d*\.`:
the word is split into a non-empty digit group, an optional dot, a digit
group, an optional dot, a digit group and the mandatory final dot. -/
def codeLang (w : List Char) : Bool :=
  (tryPlus w).any fun n1 =>
    (tryOpt (w.drop n1)).any fun n2 =>
      (tryStar ((w.drop n1).drop n2)).any fun n3 =>
        (tryOpt (((w.drop n1).drop n2).drop n3)).any fun n4 =>
          (tryStar ((((w.drop n1).drop n2).drop n3).drop n4)).any fun n5 =>
            decide (((((w.drop n1).drop n2).drop n3).drop n4).drop n5 = ['.'])

/-- Structural description of a word of the label language: digits, optional
dot, digits, optional dot, digits, final dot. -/
def IsExtLabel (w : List Char) : Prop :=
  ∃ d1 o1 d2 o2 d3 : List Char,
    w = d1 ++ o1 ++ d2 ++ o2 ++ d3 ++ ['.'] ∧
    d1 ≠ [] ∧ (∀ c ∈ d1, isDigitChar c = true) ∧
    (o1 = [] ∨ o1 = ['.']) ∧ (∀ c ∈ d2, isDigitChar c = true) ∧
    (o2 = [] ∨ o2 = ['.']) ∧ (∀ c ∈ d3, isDigitChar c = true)

/-- Attempt to match the whole `CLAUSE_PATTERN` at an anchor position (a
position where `^` holds): greedy `\s*`, then the label, then the maximal
`\s+`.  On success, returns the first capture group, the second capture group
(the label) and the text after the match.  Because digits are not whitespace,
the greedy `\s*` never needs to backtrack. -/
def tryHere (s : List Char) : Option (List Char × List Char × List Char) :=
  let s1 := s.drop (spaceRun s)
  match matchLabel s1 with
  | none => none
  | some nl =>
    let s2 := s1.drop nl
    let tws := spaceRun s2
    some (s.take (spaceRun s) ++ s1.take nl ++ s2.take tws, s1.take nl, s2.drop tws)

/-- One match found by the left-to-right scan of `re.split`: the unmatched
text before the match, the two capture groups, and the text after it. -/
structure ReMatch where
  pre : List Char
  g1 : List Char
  g2 : List Char
  rest : List Char
deriving DecidableEq

/-- Scan for the leftmost match of `CLAUSE_PATTERN`.  The Boolean records
whether the current position is a line start (position 0, or the position
immediately after a newline), which is where the `^` anchor holds. -/
def findMatch : List Char → Bool → Option ReMatch
  | [], _ => none
  | c :: cs, atStart =>
    match (if atStart then tryHere (c :: cs) else none) with
    | some (g1, g2, rest) => some ⟨[], g1, g2, rest⟩
    | none =>
      match findMatch cs (c == '\n') with
      | some m => some ⟨c :: m.pre, m.g1, m.g2, m.rest⟩
      | none => none

/-- Iterated scanning of `re.split`: each found match contributes the
unmatched prefix and the two capture groups, and scanning resumes after the
match.  The fuel only bounds the number of matches; every match consumes at
least three characters, so `length s + 1` units never run out, and the
exhausted case has the same shape as the no-match case. -/
def reSplitGo : Nat → List Char → Bool → List (List Char)
  | 0, s, _ => [s]
  | fuel + 1, s, atStart =>
    match findMatch s atStart with
    | none => [s]
    | some m => m.pre :: m.g1 :: m.g2 :: reSplitGo fuel m.rest (m.g1.getLast? == some '\n')

/-- The list returned by `re.split(CLAUSE_PATTERN, full_text, flags=re.MULTILINE)`. -/
def reSplit (s : List Char) : List (List Char) :=
  reSplitGo (s.length + 1) s true

/-- Python's `str.strip()`: remove leading and trailing whitespace. -/
def strip (s : List Char) : List Char :=
  ((s.dropWhile isPySpace).reverse.dropWhile isPySpace).reverse

/-- The index list of `range(3, stop, 3)`. -/
def pyRange3 (stop : Nat) : List Nat :=
  List.range' 3 ((stop - 3 + 2) / 3) 3

/-- A clause record `{"number": …, "text": …}` produced by the segmenter. -/
structure Clause where
  number : List Char
  text : List Char
deriving DecidableEq

/-- The loop `for i in range(3, len(parts), 3)` of `split_text_into_clauses`:
for each index it reads `parts[i-1]` (a label capture group) and `parts[i]`
(the text running to the next match), strips both, and keeps the pair only if
both are non-empty. -/
def idxSplit (parts : List (List Char)) : List Clause :=
  (pyRange3 parts.length).filterMap fun i =>
    if strip (parts.getD (i - 1) []) ≠ [] ∧ strip (parts.getD i []) ≠ [] then
      some ⟨strip (parts.getD (i - 1) []), strip (parts.getD i [])⟩
    else none

/-- The segmenter `split_text_into_clauses` of `law_checker.py`: empty input
short-circuits to the empty list, otherwise the regex split is traversed with
the stride-3 index loop. -/
def split_text_into_clauses (full_text : List Char) : List Clause :=
  if full_text = [] then [] else idxSplit (reSplit full_text)

/-- Modelled from the spec: consume one integer group followed by a period,
the building block of the hierarchical-label grammar of spec section 3/4.1. -/
def intDot (s : List Char) : Option (List Char) :=
  if digitRun s = 0 then none
  else
    match s.drop (digitRun s) with
    | c :: rest => if c = '.' then some rest else none
    | [] => none

/-- Modelled from the spec: the hierarchical-label grammar
`INT ('.' INT)? ('.' INT)? '.'` — one to three integer groups separated by
periods, with a trailing period after the final group. -/
def grammarLabel (s : List Char) : Bool :=
  match intDot s with
  | none => false
  | some r1 =>
    r1 = [] ||
      match intDot r1 with
      | none => false
      | some r2 =>
        r2 = [] ||
          match intDot r2 with
          | none => false
          | some r3 => r3 = []

/-- Modelled from the spec: at this position (assumed to be a line start), an
optional run of leading whitespace is followed by a grammar label and then at
least one whitespace character.  Because a grammar label starts with a digit,
the leading whitespace of any such reading is exactly the maximal run. -/
def grammarBoundaryHere (s : List Char) : Bool :=
  (List.range ((s.drop (spaceRun s)).length + 1)).any fun k =>
    grammarLabel ((s.drop (spaceRun s)).take k) &&
      nextIsSpace ((s.drop (spaceRun s)).drop k)

/-- Modelled from the spec: some line-start position of the text carries a
clause boundary in the sense of the spec grammar.  The Boolean argument
records whether the current position is a line start. -/
def hasSpecBoundary : List Char → Bool → Bool
  | [], _ => false
  | c :: cs, atStart =>
    (atStart && grammarBoundaryHere (c :: cs)) || hasSpecBoundary cs (c == '\n')

/-- Python's `str.lower()`, restricted to the ASCII letters that occur in the
phrases the status classification searches for. -/
def lowerAscii (s : List Char) : List Char :=
  s.map Char.toLower

/-- Python's substring test `needle in hay`. -/
def containsSub (hay needle : List Char) : Bool :=
  match hay with
  | [] => needle.isPrefixOf ([] : List Char)
  | a :: t => needle.isPrefixOf (a :: t) || containsSub t needle

/-- Outcome of the remote `JAMAI_CLIENT.chat.complete` call: either the text
of the response, or the message of the exception it raised. -/
inductive RemoteOutcome where
  | success (text : List Char)
  | failure (errMsg : List Char)
deriving DecidableEq

/-- The dictionary `{"is_compliant": …, "reasoning": …}` returned by
`check_clause_compliance`; both values are strings in the source. -/
structure ComplianceResult where
  is_compliant : List Char
  reasoning : List Char
deriving DecidableEq

/-- Status classification of `check_clause_compliance`, lines 93-98 of
`law_checker.py`: substring tests on the lower-cased response text, with the
non-compliant test taking precedence, then partially compliant, and
"Compliant" as the default. -/
def classify_reasoning (reasoning : List Char) : List Char :=
  if containsSub (lowerAscii reasoning) ("non-compliant".data) ||
      containsSub (lowerAscii reasoning) ("not compliant".data) then
    "Non-Compliant".data
  else if containsSub (lowerAscii reasoning) ("partially compliant".data) then
    "Partially Compliant".data
  else
    "Compliant".data

/-- The remote client: `None` models an uninitialized `JAMAI_CLIENT`, and an
initialized client is modelled by its `chat.complete` behaviour, a function
from (system prompt, user prompt) to the outcome of the call. -/
def system_prompt : List Char :=
  ("You are an expert legal compliance officer checking a contract. " ++
    "Analyze the provided CONTRACT CLAUSE against the CONTEXT provided by the legal knowledge base. " ++
    "Determine if the clause is compliant, partially compliant, or non-compliant. " ++
    "Always cite the relevant law section from the CONTEXT that supports your finding. " ++
    "If no relevant context is found, state that.").data

/-- The function `check_clause_compliance` of `law_checker.py`: an
uninitialized client short-circuits to the "Error" result without any remote
call; otherwise the remote call is made and its response text classified, an
exception being converted into the "API Error" result. -/
def check_clause_compliance (jamai_client : Option (List Char → List Char → RemoteOutcome))
    (clause_number clause_text : List Char) : ComplianceResult :=
  match jamai_client with
  | none => ⟨"Error".data, "JamAI Client not initialized.".data⟩
  | some complete =>
    match complete system_prompt
        ("CONTRACT CLAUSE ".data ++ clause_number ++ ": ".data ++ clause_text) with
    | RemoteOutcome.success reasoning =>
        ⟨classify_reasoning reasoning, reasoning⟩
    | RemoteOutcome.failure e =>
        ⟨"API Error".data, "JamAI API call failed: ".data ++ e⟩

/-- One element appended to `results` in the loop of `check_full_contract`
(lines 145-149 of `law_checker.py`): the dictionary holds only the clause
number, the clause text and the status — no reasoning entry. -/
structure ResultRow where
  number : List Char
  text : List Char
  status : List Char
deriving DecidableEq

/-- The list `results` built by the loop of `check_full_contract`. -/
def check_full_contract_results (jamai_client : Option (List Char → List Char → RemoteOutcome))
    (full_contract_text : List Char) : List ResultRow :=
  (split_text_into_clauses full_contract_text).map fun clause =>
    ⟨clause.number, clause.text,
      (check_clause_compliance jamai_client clause.number clause.text).is_compliant⟩

/-- The function `check_full_contract` of `law_checker.py`.  When the
segmenter finds no clauses the function executes `return []`; otherwise the
loop builds `results`, but the function body ends without a return statement,
so the Python function returns `None` — modelled by `none`.  The Streamlit
progress calls are UI side effects with no bearing on the returned value. -/
def check_full_contract (jamai_client : Option (List Char → List Char → RemoteOutcome))
    (full_contract_text : List Char) : Option (List ResultRow) :=
  let clauses := split_text_into_clauses full_contract_text
  if clauses = [] then some []
  else
    let _results := check_full_contract_results jamai_client full_contract_text
    none

/-- A concrete initialized client whose remote call always succeeds, used to
evaluate the orchestration at concrete inputs. -/
def demoClient : List Char → List Char → RemoteOutcome :=
  fun _ _ => RemoteOutcome.success ("The clause is compliant with the Employment Act.".data)

/-! ### Basic facts about the character classes and runs -/

lemma not_digit_of_space {c : Char} (h : isPySpace c = true) : isDigitChar c = false := by
  simp only [isPySpace, decide_eq_true_eq, Bool.or_eq_true, Bool.and_eq_true] at h
  simp only [isDigitChar, Bool.and_eq_false_iff, decide_eq_false_iff_not]
  omega

lemma not_dot_of_space {c : Char} (h : isPySpace c = true) : c ≠ '.' := by
  intro he
  subst he
  exact absurd h (by decide)

lemma digitRun_le (s : List Char) : digitRun s ≤ s.length := by
  induction s with
  | nil => simp [digitRun]
  | cons c cs ih =>
    by_cases h : isDigitChar c = true
    · simp [digitRun, h]; omega
    · simp [digitRun, h]

lemma spaceRun_le (s : List Char) : spaceRun s ≤ s.length := by
  induction s with
  | nil => simp [spaceRun]
  | cons c cs ih =>
    by_cases h : isPySpace c = true
    · simp [spaceRun, h]; omega
    · simp [spaceRun, h]

lemma take_digits : ∀ {s : List Char} {n : Nat}, n ≤ digitRun s →
    ∀ c ∈ s.take n, isDigitChar c = true := by
  intro s
  induction s with
  | nil => intro n _ c hc; simp at hc
  | cons a t ih =>
    intro n hn c hc
    by_cases ha : isDigitChar a = true
    · rw [digitRun, if_pos ha] at hn
      cases n with
      | zero => simp at hc
      | succ m =>
        rw [List.take_succ_cons] at hc
        rcases List.mem_cons.mp hc with rfl | hc
        · exact ha
        · exact ih (by omega) c hc
    · rw [digitRun, if_neg ha] at hn
      interval_cases n
      simp at hc

lemma take_spaces : ∀ {s : List Char} {n : Nat}, n ≤ spaceRun s →
    ∀ c ∈ s.take n, isPySpace c = true := by
  intro s
  induction s with
  | nil => intro n _ c hc; simp at hc
  | cons a t ih =>
    intro n hn c hc
    by_cases ha : isPySpace a = true
    · rw [spaceRun, if_pos ha] at hn
      cases n with
      | zero => simp at hc
      | succ m =>
        rw [List.take_succ_cons] at hc
        rcases List.mem_cons.mp hc with rfl | hc
        · exact ha
        · exact ih (by omega) c hc
    · rw [spaceRun, if_neg ha] at hn
      interval_cases n
      simp at hc

lemma digits_prefix_le : ∀ {t : List Char} (r : List Char),
    (∀ c ∈ t, isDigitChar c = true) → t.length ≤ digitRun (t ++ r) := by
  intro t
  induction t with
  | nil => intro r _; simp
  | cons a t' ih =>
    intro r h
    have ha : isDigitChar a = true := h a (List.mem_cons_self a t')
    have := ih r (fun c hc => h c (List.mem_cons_of_mem a hc))
    simp only [List.cons_append, digitRun, if_pos ha, List.length_cons, List.append_eq]
    omega

lemma spaceRun_cons_pos {c : Char} {t : List Char} (h : isPySpace c = true) :
    1 ≤ spaceRun (c :: t) := by
  rw [spaceRun, if_pos h]
  omega

lemma mem_tryPlus {s : List Char} {n : Nat} :
    n ∈ tryPlus s ↔ 1 ≤ n ∧ n ≤ digitRun s := by
  simp only [tryPlus, List.mem_reverse, List.mem_map, List.mem_range]
  constructor
  · rintro ⟨a, ha, rfl⟩; omega
  · rintro ⟨h1, h2⟩; exact ⟨n - 1, by omega, by omega⟩

lemma mem_tryStar {s : List Char} {n : Nat} :
    n ∈ tryStar s ↔ n ≤ digitRun s := by
  simp only [tryStar, List.mem_reverse, List.mem_range]
  omega

lemma mem_tryOpt {s : List Char} {n : Nat} (h : n ∈ tryOpt s) :
    n = 0 ∨ (n = 1 ∧ ∃ t, s = '.' :: t) := by
  cases s with
  | nil => simp [tryOpt] at h; exact Or.inl h
  | cons c t =>
    by_cases hc : c = '.'
    · subst hc
      simp [tryOpt] at h
      rcases h with rfl | rfl
      · exact Or.inr ⟨rfl, t, rfl⟩
      · exact Or.inl rfl
    · simp [tryOpt, hc] at h
      exact Or.inl h

lemma tryOpt_zero (s : List Char) : 0 ∈ tryOpt s := by
  cases s with
  | nil => simp [tryOpt]
  | cons c t =>
    by_cases hc : c = '.'
    · subst hc; simp [tryOpt]
    · simp [tryOpt, hc]

/-! ### The backtracking label matcher and the label language -/

lemma label_assemble {s : List Char} {n1 n2 n3 n4 n5 : Nat} {rest : List Char}
    (h1 : n1 ∈ tryPlus s)
    (h2 : n2 ∈ tryOpt (s.drop n1))
    (h3 : n3 ∈ tryStar ((s.drop n1).drop n2))
    (h4 : n4 ∈ tryOpt (((s.drop n1).drop n2).drop n3))
    (h5 : n5 ∈ tryStar ((((s.drop n1).drop n2).drop n3).drop n4))
    (hfin : ((((s.drop n1).drop n2).drop n3).drop n4).drop n5 = '.' :: rest) :
    IsExtLabel (s.take (n1 + n2 + n3 + n4 + n5 + 1)) ∧
      s.drop (n1 + n2 + n3 + n4 + n5 + 1) = rest := by
  obtain ⟨hn1a, hn1b⟩ := mem_tryPlus.mp h1
  have hn3 := mem_tryStar.mp h3
  have hn5 := mem_tryStar.mp h5
  have l1 : (s.take n1).length = n1 :=
    List.length_take_of_le (le_trans hn1b (digitRun_le s))
  have l2 : ((s.drop n1).take n2).length = n2 := by
    rcases mem_tryOpt h2 with rfl | ⟨rfl, t, ht⟩
    · rfl
    · rw [ht]; rfl
  have l3 : (((s.drop n1).drop n2).take n3).length = n3 :=
    List.length_take_of_le (le_trans hn3 (digitRun_le _))
  have l4 : ((((s.drop n1).drop n2).drop n3).take n4).length = n4 := by
    rcases mem_tryOpt h4 with rfl | ⟨rfl, t, ht⟩
    · rfl
    · rw [ht]; rfl
  have l5 : (((((s.drop n1).drop n2).drop n3).drop n4).take n5).length = n5 :=
    List.length_take_of_le (le_trans hn5 (digitRun_le _))
  have sh1 : (s.drop n1).take n2 = [] ∨ (s.drop n1).take n2 = ['.'] := by
    rcases mem_tryOpt h2 with rfl | ⟨rfl, t, ht⟩
    · exact Or.inl rfl
    · right; rw [ht]; rfl
  have sh2 : (((s.drop n1).drop n2).drop n3).take n4 = [] ∨
      (((s.drop n1).drop n2).drop n3).take n4 = ['.'] := by
    rcases mem_tryOpt h4 with rfl | ⟨rfl, t, ht⟩
    · exact Or.inl rfl
    · right; rw [ht]; rfl
  have key : s = s.take n1 ++ ((s.drop n1).take n2 ++ (((s.drop n1).drop n2).take n3 ++
      ((((s.drop n1).drop n2).drop n3).take n4 ++
        (((((s.drop n1).drop n2).drop n3).drop n4).take n5 ++ ('.' :: rest))))) := by
    conv_lhs => rw [← List.take_append_drop n1 s]
    congr 1
    conv_lhs => rw [← List.take_append_drop n2 (s.drop n1)]
    congr 1
    conv_lhs => rw [← List.take_append_drop n3 ((s.drop n1).drop n2)]
    congr 1
    conv_lhs => rw [← List.take_append_drop n4 (((s.drop n1).drop n2).drop n3)]
    congr 1
    conv_lhs => rw [← List.take_append_drop n5 ((((s.drop n1).drop n2).drop n3).drop n4)]
    congr 1
  have key2 : s = (s.take n1 ++ (s.drop n1).take n2 ++ ((s.drop n1).drop n2).take n3 ++
      (((s.drop n1).drop n2).drop n3).take n4 ++
        ((((s.drop n1).drop n2).drop n3).drop n4).take n5 ++ ['.']) ++ rest := by
    conv_lhs => rw [key]
    simp [List.append_assoc]
  have hlen : (s.take n1 ++ (s.drop n1).take n2 ++ ((s.drop n1).drop n2).take n3 ++
      (((s.drop n1).drop n2).drop n3).take n4 ++
        ((((s.drop n1).drop n2).drop n3).drop n4).take n5 ++ ['.']).length =
      n1 + n2 + n3 + n4 + n5 + 1 := by
    simp only [List.length_append, l1, l2, l3, l4, l5, List.length_singleton]
  constructor
  · have htake : s.take (n1 + n2 + n3 + n4 + n5 + 1) =
        s.take n1 ++ (s.drop n1).take n2 ++ ((s.drop n1).drop n2).take n3 ++
          (((s.drop n1).drop n2).drop n3).take n4 ++
            ((((s.drop n1).drop n2).drop n3).drop n4).take n5 ++ ['.'] := by
      conv_lhs => rw [key2]
      rw [← hlen]
      exact List.take_left _ _
    rw [htake]
    refine ⟨s.take n1, (s.drop n1).take n2, ((s.drop n1).drop n2).take n3,
      (((s.drop n1).drop n2).drop n3).take n4,
      ((((s.drop n1).drop n2).drop n3).drop n4).take n5, rfl, ?_,
      take_digits hn1b, sh1, take_digits hn3, sh2, take_digits hn5⟩
    intro hnil
    rw [hnil] at l1
    simp at l1
    omega
  · conv_lhs => rw [key2]
    rw [← hlen]
    exact List.drop_left _ _

lemma matchLabel_sound {s : List Char} {n : Nat} (h : matchLabel s = some n) :
    IsExtLabel (s.take n) ∧ ∃ c t, s.drop n = c :: t ∧ isPySpace c = true := by
  unfold matchLabel at h
  obtain ⟨n1, hm1, h⟩ := List.exists_of_findSome?_eq_some h
  obtain ⟨n2, hm2, h⟩ := List.exists_of_findSome?_eq_some h
  obtain ⟨n3, hm3, h⟩ := List.exists_of_findSome?_eq_some h
  obtain ⟨n4, hm4, h⟩ := List.exists_of_findSome?_eq_some h
  obtain ⟨n5, hm5, h⟩ := List.exists_of_findSome?_eq_some h
  cases hfin : ((((s.drop n1).drop n2).drop n3).drop n4).drop n5 with
  | nil => rw [hfin] at h; simp at h
  | cons c0 rest0 =>
    rw [hfin] at h
    dsimp only [] at h
    by_cases hcond : (decide (c0 = '.') && nextIsSpace rest0) = true
    · rw [if_pos hcond] at h
      have hn : n = n1 + n2 + n3 + n4 + n5 + 1 := (Option.some.inj h).symm
      simp only [Bool.and_eq_true, decide_eq_true_eq] at hcond
      obtain ⟨hc0, hns⟩ := hcond
      subst hc0
      have A := label_assemble hm1 hm2 hm3 hm4 hm5 hfin
      cases rest0 with
      | nil => simp [nextIsSpace] at hns
      | cons c1 t1 =>
        simp only [nextIsSpace] at hns
        subst hn
        exact ⟨A.1, c1, t1, A.2, hns⟩
    · rw [if_neg hcond] at h
      simp at h

lemma codeLang_extLabel {w : List Char} (h : codeLang w = true) : IsExtLabel w := by
  simp only [codeLang, List.any_eq_true] at h
  obtain ⟨n1, hm1, h⟩ := h
  obtain ⟨n2, hm2, h⟩ := h
  obtain ⟨n3, hm3, h⟩ := h
  obtain ⟨n4, hm4, h⟩ := h
  obtain ⟨n5, hm5, h⟩ := h
  rw [decide_eq_true_eq] at h
  have A := label_assemble hm1 hm2 hm3 hm4 hm5 h
  have hlen : w.length ≤ n1 + n2 + n3 + n4 + n5 + 1 := by
    have h2 := A.2
    rwa [List.drop_eq_nil_iff] at h2
  have h1 := A.1
  rwa [List.take_of_length_le hlen] at h1

lemma extLabel_codeLang {w : List Char} (h : IsExtLabel w) : codeLang w = true := by
  obtain ⟨d1, o1, d2, o2, d3, hw, hne, hdig1, ho1, hdig2, ho2, hdig3⟩ := h
  have hw' : w = d1 ++ (o1 ++ (d2 ++ (o2 ++ (d3 ++ ['.'])))) := by
    rw [hw]; simp [List.append_assoc]
  simp only [codeLang, List.any_eq_true]
  have hdr1 : w.drop d1.length = o1 ++ (d2 ++ (o2 ++ (d3 ++ ['.']))) := by
    rw [hw']; exact List.drop_left _ _
  have hdr2 : (w.drop d1.length).drop o1.length = d2 ++ (o2 ++ (d3 ++ ['.'])) := by
    rw [hdr1]; exact List.drop_left _ _
  have hdr3 : ((w.drop d1.length).drop o1.length).drop d2.length = o2 ++ (d3 ++ ['.']) := by
    rw [hdr2]; exact List.drop_left _ _
  have hdr4 : (((w.drop d1.length).drop o1.length).drop d2.length).drop o2.length =
      d3 ++ ['.'] := by
    rw [hdr3]; exact List.drop_left _ _
  have hdr5 : ((((w.drop d1.length).drop o1.length).drop d2.length).drop o2.length).drop
      d3.length = ['.'] := by
    rw [hdr4]; exact List.drop_left _ _
  refine ⟨d1.length, ?_, o1.length, ?_, d2.length, ?_, o2.length, ?_, d3.length, ?_, ?_⟩
  · rw [mem_tryPlus]
    refine ⟨List.length_pos.mpr hne, ?_⟩
    rw [hw']
    exact digits_prefix_le _ hdig1
  · rw [hdr1]
    rcases ho1 with rfl | rfl
    · exact tryOpt_zero _
    · simp [tryOpt]
  · rw [mem_tryStar, hdr2]
    exact digits_prefix_le _ hdig2
  · rw [hdr3]
    rcases ho2 with rfl | rfl
    · exact tryOpt_zero _
    · simp [tryOpt]
  · rw [mem_tryStar, hdr4]
    exact digits_prefix_le _ hdig3
  · rw [hdr5]
    simp

lemma extLabel_chars {w : List Char} (h : IsExtLabel w) :
    ∀ c ∈ w, isDigitChar c = true ∨ c = '.' := by
  obtain ⟨d1, o1, d2, o2, d3, hw, _, hdig1, ho1, hdig2, ho2, hdig3⟩ := h
  intro c hc
  rw [hw] at hc
  simp only [List.mem_append, List.mem_singleton] at hc
  rcases hc with ((((h1 | h2) | h3) | h4) | h5) | h6
  · exact Or.inl (hdig1 c h1)
  · rcases ho1 with rfl | rfl
    · simp at h2
    · simp at h2; exact Or.inr h2
  · exact Or.inl (hdig2 c h3)
  · rcases ho2 with rfl | rfl
    · simp at h4
    · simp at h4; exact Or.inr h4
  · exact Or.inl (hdig3 c h5)
  · exact Or.inr h6

/-! ### Soundness of the scan for `CLAUSE_PATTERN` matches -/

lemma tryHere_sound {s g1 g2 rest : List Char}
    (h : tryHere s = some (g1, g2, rest)) :
    s = g1 ++ rest ∧
      ∃ ws lab c t, g1 = ws ++ lab ++ c :: t ∧ g2 = lab ∧
        (∀ x ∈ ws, isPySpace x = true) ∧ IsExtLabel lab ∧ isPySpace c = true := by
  simp only [tryHere] at h
  cases hml : matchLabel (s.drop (spaceRun s)) with
  | none => rw [hml] at h; simp at h
  | some nl =>
    rw [hml] at h
    simp only [Option.some.injEq, Prod.mk.injEq] at h
    obtain ⟨hg1, hg2, hrest⟩ := h
    obtain ⟨hext, c0, t0, hdrop, hsp⟩ := matchLabel_sound hml
    have htk : ((s.drop (spaceRun s)).drop nl).take (spaceRun ((s.drop (spaceRun s)).drop nl)) =
        c0 :: t0.take (spaceRun t0) := by
      rw [hdrop, spaceRun, if_pos hsp, List.take_succ_cons]
    have e : s = s.take (spaceRun s) ++ ((s.drop (spaceRun s)).take nl ++
        (((s.drop (spaceRun s)).drop nl).take (spaceRun ((s.drop (spaceRun s)).drop nl)) ++
          ((s.drop (spaceRun s)).drop nl).drop (spaceRun ((s.drop (spaceRun s)).drop nl)))) := by
      conv_lhs => rw [← List.take_append_drop (spaceRun s) s]
      congr 1
      conv_lhs => rw [← List.take_append_drop nl (s.drop (spaceRun s))]
      congr 1
      conv_lhs =>
        rw [← List.take_append_drop (spaceRun ((s.drop (spaceRun s)).drop nl))
          ((s.drop (spaceRun s)).drop nl)]
    constructor
    · conv_lhs => rw [e]
      rw [← hg1, ← hrest]
      simp [List.append_assoc]
    · refine ⟨s.take (spaceRun s), (s.drop (spaceRun s)).take nl, c0, t0.take (spaceRun t0),
        ?_, hg2.symm, take_spaces (le_refl _), hext, hsp⟩
      rw [← hg1, htk]

lemma findMatch_sound : ∀ (s : List Char) (b : Bool) (m : ReMatch),
    findMatch s b = some m →
    s = m.pre ++ m.g1 ++ m.rest ∧
      (m.pre = [] → b = true) ∧
      (m.pre ≠ [] → m.pre.getLast? = some '\n') ∧
      ∃ ws lab c t, m.g1 = ws ++ lab ++ c :: t ∧ m.g2 = lab ∧
        (∀ x ∈ ws, isPySpace x = true) ∧ IsExtLabel lab ∧ isPySpace c = true := by
  intro s
  induction s with
  | nil => intro b m h; simp [findMatch] at h
  | cons c cs ih =>
    intro b m h
    simp only [findMatch] at h
    cases hth : (if b then tryHere (c :: cs) else none) with
    | some trip =>
      obtain ⟨g1, g2, rest⟩ := trip
      rw [hth] at h
      simp only [Option.some.injEq] at h
      subst h
      have hb : b = true := by
        cases b with
        | false => simp at hth
        | true => rfl
      subst hb
      simp only [if_pos trivial, if_true] at hth
      obtain ⟨he, hex⟩ := tryHere_sound hth
      refine ⟨by simpa using he, fun _ => rfl, fun hne => absurd rfl hne, hex⟩
    | none =>
      rw [hth] at h
      cases hrec : findMatch cs (c == '\n') with
      | none => rw [hrec] at h; simp at h
      | some m2 =>
        rw [hrec] at h
        simp only [Option.some.injEq] at h
        subst h
        obtain ⟨he, hpre, hlast, hex⟩ := ih (c == '\n') m2 hrec
        refine ⟨?_, ?_, ?_, hex⟩
        · simp only [List.cons_append]
          rw [← he]
        · intro hc; simp at hc
        · intro _
          cases hmp : m2.pre with
          | nil =>
            have hb2 := hpre hmp
            have hcn : c = '\n' := eq_of_beq hb2
            subst hcn
            simp
          | cons y ys =>
            have hys := hlast (by rw [hmp]; simp)
            rw [hmp] at hys
            show (c :: y :: ys).getLast? = some '\n'
            rw [List.getLast?_cons_cons]
            exact hys

/-! ### Structure of the list of parts returned by the regex split -/

/-- Reassemble the original text from the parts: each match contributes its
unmatched prefix and its first capture group (the full match), the second
capture group being a segment of the first. -/
def joinParts : List (List Char) → List Char
  | pre :: g1 :: _ :: rest => pre ++ g1 ++ joinParts rest
  | [t] => t
  | _ => []

/-- The stripped label capture groups, in scan order. -/
def labelParts : List (List Char) → List (List Char)
  | _ :: _ :: g2 :: rest => strip g2 :: labelParts rest
  | _ => []

lemma reSplitGo_length_mod : ∀ (fuel : Nat) (s : List Char) (b : Bool),
    (reSplitGo fuel s b).length % 3 = 1 := by
  intro fuel
  induction fuel with
  | zero => intro s b; rfl
  | succ n ih =>
    intro s b
    rw [reSplitGo]
    cases hfm : findMatch s b with
    | none => rfl
    | some m =>
      simp only [List.length_cons]
      have := ih m.rest (m.g1.getLast? == some '\n')
      omega

lemma reSplitGo_join : ∀ (fuel : Nat) (s : List Char) (b : Bool),
    joinParts (reSplitGo fuel s b) = s := by
  intro fuel
  induction fuel with
  | zero => intro s b; rfl
  | succ n ih =>
    intro s b
    rw [reSplitGo]
    cases hfm : findMatch s b with
    | none => rfl
    | some m =>
      show m.pre ++ m.g1 ++ joinParts (reSplitGo n m.rest (m.g1.getLast? == some '\n')) = s
      rw [ih]
      exact (findMatch_sound s b m hfm).1.symm

lemma reSplitGo_ne_nil (fuel : Nat) (s : List Char) (b : Bool) :
    reSplitGo fuel s b ≠ [] := by
  cases fuel with
  | zero => simp [reSplitGo]
  | succ n =>
    rw [reSplitGo]
    cases hfm : findMatch s b with
    | none => simp
    | some m => simp

/-! ### Facts about `strip`, the index loop and the substring test -/

lemma dropWhile_dropWhile (p : Char → Bool) (l : List Char) :
    List.dropWhile p (List.dropWhile p l) = List.dropWhile p l := by
  induction l with
  | nil => rfl
  | cons a t ih =>
    by_cases h : p a = true
    · simp [List.dropWhile_cons, h, ih]
    · simp [List.dropWhile_cons, h]

lemma dropWhile_head_not {p : Char → Bool} : ∀ {l : List Char} {a : Char} {t : List Char},
    List.dropWhile p l = a :: t → p a = false := by
  intro l
  induction l with
  | nil => intro a t h; simp at h
  | cons x xs ih =>
    intro a t h
    by_cases hx : p x = true
    · rw [List.dropWhile_cons, if_pos hx] at h
      exact ih h
    · rw [List.dropWhile_cons, if_neg hx] at h
      injection h with h1 h2
      subst h1
      exact Bool.eq_false_iff.mpr hx

lemma strip_idem (s : List Char) : strip (strip s) = strip s := by
  unfold strip
  generalize hA : s.dropWhile isPySpace = A
  generalize hB : A.reverse.dropWhile isPySpace = B
  have hBrev : B.reverse.dropWhile isPySpace = B.reverse := by
    cases hB2 : B with
    | nil => simp
    | cons b B2 =>
      have hsuf : B <:+ A.reverse := by rw [← hB]; exact List.dropWhile_suffix _
      obtain ⟨pref, hpref⟩ := hsuf
      cases hA2 : A with
      | nil =>
        rw [hA2] at hpref
        simp only [List.reverse_nil, List.append_eq_nil] at hpref
        rw [hpref.2] at hB2
        simp at hB2
      | cons a A2 =>
        have hpa : isPySpace a = false := by
          apply dropWhile_head_not (l := s)
          rw [hA, hA2]
        have hlastB : B.getLast? = some a := by
          have h1 : (pref ++ B).getLast? = B.getLast? :=
            List.getLast?_append_of_ne_nil pref (by rw [hB2]; simp)
          rw [hpref] at h1
          rw [← h1, List.getLast?_reverse, hA2]
          rfl
        have hheadrev : B.reverse.head? = some a := by
          rw [List.head?_reverse]
          exact hlastB
        cases hBr : B.reverse with
        | nil => rw [hBr] at hheadrev; simp at hheadrev
        | cons x xs =>
          rw [hBr] at hheadrev
          simp only [List.head?_cons, Option.some.injEq] at hheadrev
          subst hheadrev
          rw [← hB2, hBr, List.dropWhile_cons, if_neg (by simp [hpa])]
  rw [hBrev, List.reverse_reverse, ← hB, dropWhile_dropWhile, hB]

lemma pyRange3_one : pyRange3 1 = [] := by
  rw [pyRange3, show (1 - 3 + 2) / 3 = 0 from rfl]
  rfl

lemma idxSplit_single (t : List Char) : idxSplit [t] = [] := by
  rw [idxSplit, List.length_singleton, pyRange3_one]
  rfl

lemma pyRange3_cons3 {m : Nat} (h : m % 3 = 1) :
    pyRange3 (m + 3) = 3 :: (pyRange3 m).map (3 + ·) := by
  obtain ⟨k, hk⟩ : ∃ k, m = 3 * k + 1 := ⟨m / 3, by omega⟩
  subst hk
  have h1 : (3 * k + 1 + 3 - 3 + 2) / 3 = k + 1 := by omega
  have h2 : (3 * k + 1 - 3 + 2) / 3 = k := by omega
  rw [pyRange3, pyRange3, h1, h2, List.range'_succ, List.map_add_range']

lemma getD_cons3 (a b c : List Char) (l : List (List Char)) (n : Nat) :
    (a :: b :: c :: l).getD (n + 3) [] = l.getD n [] := rfl

lemma idxSplit_cons3 (p g1 g2 t : List Char) (r2 : List (List Char))
    (h : (t :: r2).length % 3 = 1) :
    idxSplit (p :: g1 :: g2 :: t :: r2) =
      (if strip g2 ≠ [] ∧ strip t ≠ [] then [(⟨strip g2, strip t⟩ : Clause)] else []) ++
        idxSplit (t :: r2) := by
  have hlen : (p :: g1 :: g2 :: t :: r2).length = (t :: r2).length + 3 := by simp
  rw [idxSplit, hlen, pyRange3_cons3 h, List.filterMap_cons, List.filterMap_map, idxSplit]
  have hfun : ∀ j ∈ pyRange3 (t :: r2).length,
      ((fun i =>
          if strip ((p :: g1 :: g2 :: t :: r2).getD (i - 1) []) ≠ [] ∧
              strip ((p :: g1 :: g2 :: t :: r2).getD i []) ≠ [] then
            some (⟨strip ((p :: g1 :: g2 :: t :: r2).getD (i - 1) []),
              strip ((p :: g1 :: g2 :: t :: r2).getD i [])⟩ : Clause)
          else none) ∘ (3 + ·)) j =
        (fun i =>
          if strip ((t :: r2).getD (i - 1) []) ≠ [] ∧ strip ((t :: r2).getD i []) ≠ [] then
            some (⟨strip ((t :: r2).getD (i - 1) []), strip ((t :: r2).getD i [])⟩ : Clause)
          else none) j := by
    intro j hj
    have hj3 : 3 ≤ j := by
      rw [pyRange3] at hj
      obtain ⟨i, -, rfl⟩ := List.mem_range'.mp hj
      omega
    obtain ⟨j2, rfl⟩ : ∃ j2, j = j2 + 3 := ⟨j - 3, by omega⟩
    show (if strip ((p :: g1 :: g2 :: t :: r2).getD (3 + (j2 + 3) - 1) []) ≠ [] ∧
        strip ((p :: g1 :: g2 :: t :: r2).getD (3 + (j2 + 3)) []) ≠ [] then
        some (⟨strip ((p :: g1 :: g2 :: t :: r2).getD (3 + (j2 + 3) - 1) []),
          strip ((p :: g1 :: g2 :: t :: r2).getD (3 + (j2 + 3)) [])⟩ : Clause)
      else none) = _
    rw [show 3 + (j2 + 3) - 1 = (j2 + 2) + 3 from by omega,
      show 3 + (j2 + 3) = (j2 + 3) + 3 from by omega,
      getD_cons3, getD_cons3,
      show j2 + 2 = j2 + 3 - 1 from by omega]
  rw [List.filterMap_congr hfun]
  have e1 : (p :: g1 :: g2 :: t :: r2).getD (3 - 1) [] = g2 := rfl
  have e2 : (p :: g1 :: g2 :: t :: r2).getD 3 [] = t := rfl
  by_cases hc : strip g2 ≠ [] ∧ strip t ≠ []
  · rw [if_pos hc]
    have hval : (if strip ((p :: g1 :: g2 :: t :: r2).getD (3 - 1) []) ≠ [] ∧
        strip ((p :: g1 :: g2 :: t :: r2).getD 3 []) ≠ [] then
        some (⟨strip ((p :: g1 :: g2 :: t :: r2).getD (3 - 1) []),
          strip ((p :: g1 :: g2 :: t :: r2).getD 3 [])⟩ : Clause)
      else none) = some ⟨strip g2, strip t⟩ := by
      rw [e1, e2, if_pos hc]
    rw [hval]
    rfl
  · rw [if_neg hc]
    have hval : (if strip ((p :: g1 :: g2 :: t :: r2).getD (3 - 1) []) ≠ [] ∧
        strip ((p :: g1 :: g2 :: t :: r2).getD 3 []) ≠ [] then
        some (⟨strip ((p :: g1 :: g2 :: t :: r2).getD (3 - 1) []),
          strip ((p :: g1 :: g2 :: t :: r2).getD 3 [])⟩ : Clause)
      else none) = none := by
      rw [e1, e2, if_neg hc]
    rw [hval]
    rfl

lemma split_eq (s : List Char) : split_text_into_clauses s = idxSplit (reSplit s) := by
  by_cases h : s = []
  · subst h; rfl
  · simp [split_text_into_clauses, h]

lemma mem_idxSplit {parts : List (List Char)} {c : Clause} (h : c ∈ idxSplit parts) :
    ∃ a b, c = ⟨strip a, strip b⟩ ∧ strip a ≠ [] ∧ strip b ≠ [] := by
  simp only [idxSplit, List.mem_filterMap] at h
  obtain ⟨i, -, hf⟩ := h
  by_cases hc : strip (parts.getD (i - 1) []) ≠ [] ∧ strip (parts.getD i []) ≠ []
  · rw [if_pos hc] at hf
    exact ⟨parts.getD (i - 1) [], parts.getD i [], (Option.some.inj hf).symm, hc.1, hc.2⟩
  · rw [if_neg hc] at hf
    simp at hf

lemma containsSub_iff {hay needle : List Char} :
    containsSub hay needle = true ↔ needle <:+: hay := by
  induction hay with
  | nil =>
    simp [containsSub, List.isPrefixOf_iff_prefix]
  | cons a t ih =>
    simp [containsSub, List.isPrefixOf_iff_prefix, ih, List.infix_cons_iff]

lemma matchLabel_none_of_no_digit {s : List Char} (h : digitRun s = 0) :
    matchLabel s = none := by
  unfold matchLabel
  rw [tryPlus, h]
  rfl

lemma findMatch_none_of_no_digit : ∀ {s : List Char} (b : Bool),
    (∀ c ∈ s, isDigitChar c = false) → findMatch s b = none := by
  intro s
  induction s with
  | nil => intro b _; rfl
  | cons c cs ih =>
    intro b h
    have hth : tryHere (c :: cs) = none := by
      simp only [tryHere]
      have hdr : digitRun ((c :: cs).drop (spaceRun (c :: cs))) = 0 := by
        cases hd : (c :: cs).drop (spaceRun (c :: cs)) with
        | nil => rfl
        | cons x xs =>
          have hx : x ∈ c :: cs := by
            apply List.drop_subset (spaceRun (c :: cs)) (c :: cs)
            rw [hd]
            exact List.mem_cons_self x xs
          rw [digitRun, if_neg (by simp [h x hx])]
      rw [matchLabel_none_of_no_digit hdr]
    have hrec : findMatch cs (c == '\n') = none :=
      ih (c == '\n') (fun x hx => h x (List.mem_cons_of_mem c hx))
    cases b <;> simp [findMatch, hth, hrec]

lemma idxSplit_reSplitGo_sublist : ∀ (fuel : Nat) (s : List Char) (b : Bool),
    List.Sublist ((idxSplit (reSplitGo fuel s b)).map Clause.number)
      (labelParts (reSplitGo fuel s b)) := by
  intro fuel
  induction fuel with
  | zero =>
    intro s b
    rw [show reSplitGo 0 s b = [s] from rfl, idxSplit_single]
    exact List.nil_sublist _
  | succ n ih =>
    intro s b
    cases hfm : findMatch s b with
    | none =>
      have hgo : reSplitGo (n + 1) s b = [s] := by rw [reSplitGo, hfm]
      rw [hgo, idxSplit_single]
      exact List.nil_sublist _
    | some m =>
      have hgo : reSplitGo (n + 1) s b =
          m.pre :: m.g1 :: m.g2 :: reSplitGo n m.rest (m.g1.getLast? == some '\n') := by
        rw [reSplitGo, hfm]
      obtain ⟨t, r2, hr⟩ : ∃ t r2, reSplitGo n m.rest (m.g1.getLast? == some '\n') = t :: r2 := by
        cases hx : reSplitGo n m.rest (m.g1.getLast? == some '\n') with
        | nil => exact absurd hx (reSplitGo_ne_nil _ _ _)
        | cons t r2 => exact ⟨t, r2, rfl⟩
      have hmod : (t :: r2).length % 3 = 1 := by
        rw [← hr]
        exact reSplitGo_length_mod n m.rest (m.g1.getLast? == some '\n')
      have hih := ih m.rest (m.g1.getLast? == some '\n')
      rw [hr] at hih
      rw [hgo, hr, idxSplit_cons3 _ _ _ _ _ hmod, List.map_append]
      show List.Sublist _ (strip m.g2 :: labelParts (t :: r2))
      by_cases hc : strip m.g2 ≠ [] ∧ strip t ≠ []
      · rw [if_pos hc]
        exact hih.cons₂ (strip m.g2)
      · rw [if_neg hc]
        rw [List.map_nil, List.nil_append]
        exact hih.cons (strip m.g2)

/-! ### The claims -/

/-- Claim C1 (code_bug): on a contract text with one detected clause, the
segmenter produces that clause and the loop of `check_full_contract` builds a
status row for it, yet `check_full_contract` returns `None` — its body ends
without a return statement — and the rows it builds carry no reasoning field,
while the claim (and the caller `main.py`, which selects the columns
`number`, `status`, `reasoning` of the returned list) requires a returned
list with one entry per clause carrying number, text, status and
reasoning. -/
theorem claim_c1_missing_return :
    split_text_into_clauses ("1. Payment terms apply.".data) =
        [⟨"1.".data, "Payment terms apply.".data⟩] ∧
      check_full_contract_results (some demoClient) ("1. Payment terms apply.".data) =
        [⟨"1.".data, "Payment terms apply.".data, "Compliant".data⟩] ∧
      check_full_contract (some demoClient) ("1. Payment terms apply.".data) = none := by
  refine ⟨by decide, by decide, by decide⟩

/-- Claim C2, counterexample: the input `"1.. x"` contains no position where
a label of the spec grammar `INT ('.' INT)? ('.' INT)? '.'` appears at a line
start (after optional whitespace) followed by whitespace — `"1."` is a
grammar label but is followed by a dot — yet the segmenter does recognize a
boundary there and returns the clause `("1..", "x")`, because the code's
pattern `\d+\.?\d*\.?\d*\.` also accepts labels with empty middle integer
groups such as `"1.."`. -/
theorem claim_c2_boundary_grammar_counterexample :
    split_text_into_clauses ("1.. x".data) = [⟨"1..".data, "x".data⟩] ∧
      hasSpecBoundary ("1.. x".data) true = false := by
  refine ⟨by decide, by decide⟩

/-- Claim C2, amended: whenever the segmenter returns a non-empty result, the
input contains a line-start position where, after optional leading
whitespace, a label of the code's pattern `\d+\.?\d*\.?\d*\.` (a strict
extension of the spec grammar) is followed by at least one whitespace
character; contrapositively, an input with no such extended-pattern boundary
yields the empty sequence. -/
theorem claim_c2_boundary_grammar_amended (s : List Char)
    (h : split_text_into_clauses s ≠ []) :
    ∃ pre ws lab c rest, s = pre ++ ws ++ lab ++ c :: rest ∧
      (pre = [] ∨ pre.getLast? = some '\n') ∧
      (∀ x ∈ ws, isPySpace x = true) ∧
      codeLang lab = true ∧ isPySpace c = true := by
  rw [split_eq] at h
  cases hfm : findMatch s true with
  | none =>
    exfalso
    apply h
    rw [reSplit, reSplitGo, hfm]
    exact idxSplit_single s
  | some m =>
    obtain ⟨he, hpre, hlast, ws, lab, c, t, hg1, hg2, hws, hext, hsp⟩ :=
      findMatch_sound s true m hfm
    refine ⟨m.pre, ws, lab, c, t ++ m.rest, ?_, ?_, hws, extLabel_codeLang hext, hsp⟩
    · rw [he, hg1]
      simp [List.append_assoc]
    · by_cases hp : m.pre = []
      · exact Or.inl hp
      · exact Or.inr (hlast hp)

/-- Witness for the amended claim C2 at the input `"1. x"`. -/
theorem claim_c2_boundary_grammar_amended_witness :
    split_text_into_clauses ("1. x".data) ≠ [] ∧
      ∃ pre ws lab c rest, "1. x".data = pre ++ ws ++ lab ++ c :: rest ∧
        (pre = [] ∨ pre.getLast? = some '\n') ∧
        (∀ x ∈ ws, isPySpace x = true) ∧
        codeLang lab = true ∧ isPySpace c = true :=
  ⟨by decide, claim_c2_boundary_grammar_amended ("1. x".data) (by decide)⟩

/-- Claim C3: the regex split always yields a list of `3·k + 1` parts, and
every index `i` visited by `range(3, len(parts), 3)` satisfies
`i - 1 < len(parts)` and `i < len(parts)`, so the accesses `parts[i-1]` and
`parts[i]` of the stride-3 loop are always in bounds; the segmenter is a
total function of its input. -/
theorem claim_c3_stride_index_bounds (s : List Char) :
    (reSplit s).length % 3 = 1 ∧
      ∀ i ∈ pyRange3 (reSplit s).length,
        i - 1 < (reSplit s).length ∧ i < (reSplit s).length := by
  have hmod : (reSplit s).length % 3 = 1 := reSplitGo_length_mod (s.length + 1) s true
  refine ⟨hmod, ?_⟩
  intro i hi
  rw [pyRange3] at hi
  obtain ⟨j, hj, rfl⟩ := List.mem_range'.mp hi
  omega

/-- Witness for claim C3 at the input `"1. x"` and the index `3`. -/
theorem claim_c3_stride_index_bounds_witness :
    3 - 1 < (reSplit ("1. x".data)).length ∧ 3 < (reSplit ("1. x".data)).length :=
  (claim_c3_stride_index_bounds ("1. x".data)).2 3 (by decide)

/-- Claim C4: every clause record the segmenter returns has a label and a
body that are non-empty after trimming; degenerate candidates are filtered
out by the guard of the loop rather than reported as errors. -/
theorem claim_c4_fields_nonempty (s : List Char) (c : Clause)
    (h : c ∈ split_text_into_clauses s) :
    strip c.number ≠ [] ∧ strip c.text ≠ [] := by
  rw [split_eq] at h
  obtain ⟨a, b, rfl, ha, hb⟩ := mem_idxSplit h
  constructor
  · show strip (strip a) ≠ []
    rw [strip_idem]
    exact ha
  · show strip (strip b) ≠ []
    rw [strip_idem]
    exact hb

/-- Witness for claim C4 at the input `"1. x"`. -/
theorem claim_c4_fields_nonempty_witness :
    strip (⟨"1.".data, "x".data⟩ : Clause).number ≠ [] ∧
      strip (⟨"1.".data, "x".data⟩ : Clause).text ≠ [] :=
  claim_c4_fields_nonempty ("1. x".data) ⟨"1.".data, "x".data⟩ (by decide)

/-- Claim C5: when the label matcher succeeds, consuming `n` characters, any
competing consumption `m` that is also a valid label of the pattern followed
by a whitespace character satisfies `m ≤ n` — the matcher consumes the
longest valid label, so a sub-clause label such as `"1.1."` is never split
into a spurious top-level `"1."` boundary mid-label.  (In fact `m = n`: a
label contains no whitespace, so two distinct valid end positions are
impossible.) -/
theorem claim_c5_longest_label (s : List Char) (n m : Nat) (c : Char)
    (hn : matchLabel s = some n)
    (hm : codeLang (s.take m) = true)
    (_hc : (s.drop m).head? = some c)
    (_hsp : isPySpace c = true) :
    m ≤ n := by
  by_contra hlt
  push_neg at hlt
  obtain ⟨hext, c0, t0, hdrop, hsp0⟩ := matchLabel_sound hn
  have hchars := extLabel_chars (codeLang_extLabel hm)
  have hget : s[n]? = some c0 := by
    rw [← List.head?_drop, hdrop]
    rfl
  have hmem : c0 ∈ s.take m := by
    have hx : (s.take m)[n]? = some c0 := by
      rw [List.getElem?_take_of_lt hlt]
      exact hget
    exact List.mem_iff_getElem?.mpr ⟨n, hx⟩
  rcases hchars c0 hmem with hd | hdot
  · rw [not_digit_of_space hsp0] at hd
    cases hd
  · exact absurd hdot (not_dot_of_space hsp0)

/-- Witness for claim C5 at the input `"1.1. x"`, where the matcher consumes
the four characters of `"1.1."`. -/
theorem claim_c5_longest_label_witness : (4 : Nat) ≤ 4 :=
  claim_c5_longest_label ("1.1. x".data) 4 4 ' ' (by decide) (by decide) (by decide) (by decide)

/-- Claim C6: the parts of the regex split concatenate back to the input (so
the scan order of the matches is the document order of their positions), and
the labels of the returned clauses form a sublist — in order, without
sorting, merging, renumbering or deduplication — of the matched labels in
scan order; only degenerate candidates are dropped. -/
theorem claim_c6_document_order (s : List Char) :
    joinParts (reSplit s) = s ∧
      List.Sublist ((split_text_into_clauses s).map Clause.number) (labelParts (reSplit s)) := by
  refine ⟨reSplitGo_join _ s true, ?_⟩
  rw [split_eq]
  exact idxSplit_reSplitGo_sublist (s.length + 1) s true

/-- Claim C7: the text before the first match — the preamble — is
`parts[0]`, and the loop never reads it: replacing it by anything whatsoever
leaves the output of the segmenter unchanged, so the preamble is neither
attached to any clause body nor returned as a record of its own. -/
theorem claim_c7_preamble_discarded (s x : List Char) :
    idxSplit (x :: (reSplit s).tail) = split_text_into_clauses s := by
  rw [split_eq]
  obtain ⟨p, tl, hpt⟩ : ∃ p tl, reSplit s = p :: tl := by
    cases hr : reSplit s with
    | nil => exact absurd hr (reSplitGo_ne_nil _ s true)
    | cons p tl => exact ⟨p, tl, rfl⟩
  rw [hpt]
  show idxSplit (x :: tl) = idxSplit (p :: tl)
  rw [idxSplit, idxSplit]
  simp only [List.length_cons]
  apply List.filterMap_congr
  intro i hi
  rw [pyRange3] at hi
  obtain ⟨j, hj, rfl⟩ := List.mem_range'.mp hi
  have e1 : ∀ y : List Char, (y :: tl).getD (3 + 3 * j - 1) [] = tl.getD (3 * j + 1) [] := by
    intro y
    rw [show 3 + 3 * j - 1 = (3 * j + 1) + 1 from by omega]
    rfl
  have e2 : ∀ y : List Char, (y :: tl).getD (3 + 3 * j) [] = tl.getD (3 * j + 2) [] := by
    intro y
    rw [show 3 + 3 * j = (3 * j + 2) + 1 from by omega]
    rfl
  rw [e1 x, e1 p, e2 x, e2 p]

/-- Claim C8: an input consisting only of whitespace characters contains no
digit, hence no match of the clause pattern, and the segmenter returns the
empty list without signalling any error (the empty string is handled by the
initial guard). -/
theorem claim_c8_whitespace_empty (s : List Char) (h : ∀ c ∈ s, isPySpace c = true) :
    split_text_into_clauses s = [] := by
  rw [split_eq]
  have hfm : findMatch s true = none :=
    findMatch_none_of_no_digit true (fun c hc => not_digit_of_space (h c hc))
  rw [reSplit, reSplitGo, hfm]
  exact idxSplit_single s

/-- Witness for claim C8 at a whitespace-only input. -/
theorem claim_c8_whitespace_empty_witness :
    (∀ c ∈ (" \n\t ".data), isPySpace c = true) ∧
      split_text_into_clauses (" \n\t ".data) = [] :=
  ⟨by decide, claim_c8_whitespace_empty (" \n\t ".data) (by decide)⟩

/-- Claim C9: for a successful remote call returning the text `r`, the status
assigned by `check_clause_compliance` is determined by case-insensitive
substring tests in fixed precedence: "Non-Compliant" when the lower-cased
text contains "non-compliant" or "not compliant" (even when it also contains
"partially compliant"), otherwise "Partially Compliant" when it contains
"partially compliant", and "Compliant" by default. -/
theorem claim_c9_status_precedence (r clause_number clause_text : List Char) :
    (check_clause_compliance (some fun _ _ => RemoteOutcome.success r)
        clause_number clause_text).is_compliant =
      if "non-compliant".data <:+: lowerAscii r ∨ "not compliant".data <:+: lowerAscii r then
        "Non-Compliant".data
      else if "partially compliant".data <:+: lowerAscii r then
        "Partially Compliant".data
      else
        "Compliant".data := by
  show classify_reasoning r = _
  by_cases h1 : "non-compliant".data <:+: lowerAscii r <;>
    by_cases h2 : "not compliant".data <:+: lowerAscii r <;>
      by_cases h3 : "partially compliant".data <:+: lowerAscii r <;>
        simp [classify_reasoning, containsSub_iff, h1, h2, h3]

/-- Claim C10: with an uninitialized client (`JAMAI_CLIENT is None`),
`check_clause_compliance` returns the fixed "Error" result for every clause
number and clause text, independently of any remote behaviour — no remote
call is attempted and no exception is raised. -/
theorem claim_c10_client_uninitialized (clause_number clause_text : List Char) :
    check_clause_compliance none clause_number clause_text =
      ⟨"Error".data, "JamAI Client not initialized.".data⟩ := rfl

end LawChecker
